import Mathlib

/-!
Verification development for the CyberShake ground-motion duration pipeline
(calculate_grm_durations_binary.py). The binary record decoder, the Arias
Intensity integrator, the 5 percent to 95 percent duration extractor and the
bandpass filter designer are embedded shallowly: byte buffers become lists of
naturals, float payload words are read at their exact rational values, and the
numeric pipeline is modelled over exact fields (rationals for the branching
extractor, reals for the pi-scaled energy curve).
-/

namespace Grm

/-- Little-endian value of the four bytes of a buffer starting at offset `off`
(the struct.unpack read of `header[40:44]` in `load_binary_grm_file`). -/
def readLE32 (bytes : List ℕ) (off : ℕ) : ℕ :=
  bytes.getD off 0 + 256 * bytes.getD (off + 1) 0 + 65536 * bytes.getD (off + 2) 0 +
    16777216 * bytes.getD (off + 3) 0

/-- Reinterpretation of a 32-bit pattern as a signed integer (the `i` format of
struct.unpack). -/
def toSigned32 (v : ℕ) : ℤ :=
  if v < 2 ^ 31 then (v : ℤ) else (v : ℤ) - 2 ^ 32

/-- Little-endian byte serialization of a 32-bit word, used to build the
synthetic buffers of the round-trip property. -/
def encodeLE32 (w : ℕ) : List ℕ :=
  [w % 256, w / 256 % 256, w / 65536 % 256, w / 16777216 % 256]

/-- Grouping of a byte list into little-endian 32-bit words, the bit-pattern
level of `np.frombuffer(data_bytes, dtype=np.float32)`. -/
def leWords : List ℕ → List ℕ
  | b0 :: b1 :: b2 :: b3 :: rest =>
    (b0 + 256 * b1 + 65536 * b2 + 16777216 * b3) :: leWords rest
  | _ => []

/-- Exact rational value of an IEEE 754 binary32 bit pattern. Patterns with
exponent field 255 (infinities and NaNs) are given by the same normal-number
formula; the claims about the decoder treat payload words as opaque bit
patterns and never depend on those values. -/
def float32FromBits (w : ℕ) : ℚ :=
  let sign : ℚ := if w / 2 ^ 31 % 2 = 0 then 1 else -1
  let expo : ℕ := w / 2 ^ 23 % 2 ^ 8
  let mant : ℚ := ((w % 2 ^ 23 : ℕ) : ℚ)
  if expo = 0 then sign * (mant / 2 ^ 23) * (2 : ℚ) ^ (-(126 : ℤ))
  else sign * (1 + mant / 2 ^ 23) * (2 : ℚ) ^ ((expo : ℤ) - 127)

/-- Failure cases of the decoder. The two raise sites of
`load_binary_grm_file` become `MalformedHeader` (header shorter than 56 bytes)
and `TruncatedPayload` (payload shorter than `2 * 4 * nt` bytes); a negative
declared sample count makes the source call `fp.read` with a negative size,
which raises inside the same try block and is mapped to `OtherError`. -/
inductive DecodeError
  | MalformedHeader
  | TruncatedPayload
  | OtherError
  deriving DecidableEq

/-- Shallow embedding of `load_binary_grm_file` over the raw byte list. The
returned pair is `(time, accel_g)`: the synthesized 100 Hz time base and the
first payload block divided by 981.0, with float words decoded to their exact
rational values. -/
def load_binary_grm_file (bytes : List ℕ) : Except DecodeError (List ℚ × List ℚ) :=
  if bytes.length < 56 then .error .MalformedHeader
  else
    let ntz := toSigned32 (readLE32 bytes 40)
    if ntz < 0 then .error .OtherError
    else
      let nt := ntz.toNat
      let num_components := 2
      let sizeof_float := 4
      let data_size := num_components * sizeof_float * nt
      let data_bytes := (bytes.drop 56).take data_size
      if data_bytes.length < data_size then .error .TruncatedPayload
      else
        let data := leWords data_bytes
        let accel_cms2 := data.take nt
        let dt : ℚ := 0.01
        let time := (List.range nt).map (fun i => (i : ℚ) * dt)
        let accel_g := accel_cms2.map (fun w => float32FromBits w / 981.0)
        .ok (time, accel_g)

/-- Concatenating the four little-endian bytes of each word yields four bytes
per word. -/
theorem length_flatMap_encodeLE32 (l : List ℕ) :
    (l.flatMap encodeLE32).length = 4 * l.length := by
  induction l with
  | nil => simp
  | cons w l ih =>
    simp [List.flatMap_cons, encodeLE32, ih]
    omega

/-- Reading back the serialized words recovers them modulo 2 ^ 32. -/
theorem leWords_flatMap_encodeLE32 (l : List ℕ) :
    leWords (l.flatMap encodeLE32) = l.map (fun w => w % 2 ^ 32) := by
  induction l with
  | nil => simp [leWords]
  | cons w l ih =>
    have harith : w % 256 + 256 * (w / 256 % 256) + 65536 * (w / 65536 % 256) +
        16777216 * (w / 16777216 % 256) = w % 2 ^ 32 := by omega
    simp only [List.flatMap_cons, encodeLE32, List.cons_append, List.nil_append,
      leWords, List.map_cons]
    rw [harith]
    congr 1

/-- Claim C6: the decoder fails with `MalformedHeader` on buffers shorter than
56 bytes, and with `TruncatedPayload` when a 56-byte header declares a sample
count `nt` but fewer than `2 * 4 * nt` payload bytes follow it. -/
theorem decoder_error_cases (bytes : List ℕ) :
    (bytes.length < 56 → load_binary_grm_file bytes = .error .MalformedHeader) ∧
    (∀ nt : ℕ, 56 ≤ bytes.length → toSigned32 (readLE32 bytes 40) = (nt : ℤ) →
      bytes.length - 56 < 2 * 4 * nt →
      load_binary_grm_file bytes = .error .TruncatedPayload) := by
  constructor
  · intro h
    simp [load_binary_grm_file, h]
  · intro nt h56 hnt hshort
    have h1 : ¬ bytes.length < 56 := not_lt.2 h56
    have h2 : ¬ toSigned32 (readLE32 bytes 40) < 0 := by
      rw [hnt]; exact not_lt.2 (Int.natCast_nonneg nt)
    have h3 : (toSigned32 (readLE32 bytes 40)).toNat = nt := by
      rw [hnt]; exact Int.toNat_natCast nt
    have hlen : ((bytes.drop 56).take (2 * 4 * nt)).length = bytes.length - 56 := by
      rw [List.length_take, List.length_drop]
      omega
    simp only [load_binary_grm_file, if_neg h1, if_neg h2, h3]
    rw [if_pos]
    rw [hlen]
    exact hshort

/-- Witness for C6 at two concrete buffers: ten zero bytes trip the header
check, and a 56-byte header declaring one sample with no payload trips the
payload check. -/
theorem decoder_error_cases_witness :
    (List.replicate 10 0 : List ℕ).length < 56 ∧
      load_binary_grm_file (List.replicate 10 0) = .error .MalformedHeader ∧
    (56 ≤ (List.replicate 40 0 ++ [1, 0, 0, 0] ++ List.replicate 12 (0 : ℕ)).length ∧
      toSigned32 (readLE32 (List.replicate 40 0 ++ [1, 0, 0, 0] ++ List.replicate 12 0) 40) =
        ((1 : ℕ) : ℤ) ∧
      (List.replicate 40 0 ++ [1, 0, 0, 0] ++ List.replicate 12 (0 : ℕ)).length - 56 <
        2 * 4 * 1 ∧
      load_binary_grm_file (List.replicate 40 0 ++ [1, 0, 0, 0] ++ List.replicate 12 0) =
        .error .TruncatedPayload) := by
  refine ⟨by decide, (decoder_error_cases _).1 (by decide), by decide, ?_, by decide, ?_⟩
  · decide
  · exact (decoder_error_cases _).2 1 (by decide) (by decide) (by decide)

/-- Claim C7 (decoder round trip): a synthetic buffer made of a 56-byte header
whose bytes 40-44 encode a positive sample count `nt`, followed by two blocks
of `nt` serialized 4-byte float words each, decodes to exactly the first
block divided by 981.0 together with the synthesized time base
`time[i] = i * 0.01`. -/
theorem decoder_round_trip (h1 h2 : List ℕ) (nt : ℕ) (w1 w2 : List ℕ)
    (hh1 : h1.length = 40) (hh2 : h2.length = 12) (hpos : 0 < nt)
    (hsmall : nt < 2 ^ 31) (hw1 : w1.length = nt) (hw2 : w2.length = nt)
    (hbound : ∀ w ∈ w1 ++ w2, w < 2 ^ 32) :
    load_binary_grm_file
        (h1 ++ encodeLE32 nt ++ h2 ++ (w1 ++ w2).flatMap encodeLE32) =
      .ok ((List.range nt).map (fun i => (i : ℚ) * 0.01),
        w1.map (fun w => float32FromBits w / 981.0)) := by
  set e := encodeLE32 nt with he_def
  set p := (w1 ++ w2).flatMap encodeLE32 with hp_def
  have he : e.length = 4 := by rw [he_def]; simp [encodeLE32]
  have hhdr : (h1 ++ e ++ h2).length = 56 := by
    simp [List.length_append, hh1, hh2, he]
  have hplen : p.length = 2 * 4 * nt := by
    rw [hp_def, length_flatMap_encodeLE32, List.length_append, hw1, hw2]; ring
  have hnot56 : ¬ (h1 ++ e ++ h2 ++ p).length < 56 := by
    simp only [List.length_append] at hhdr ⊢
    omega
  have hget : ∀ i, i < 4 → (h1 ++ e ++ h2 ++ p).getD (40 + i) 0 = e.getD i 0 := by
    intro i hi
    rw [List.getD_append ((h1 ++ e) ++ h2) p 0 (40 + i) (by omega),
      List.getD_append (h1 ++ e) h2 0 (40 + i) (by simp [hh1, he]; omega),
      List.getD_append_right h1 e 0 (40 + i) (by omega), hh1]
    congr 1
    omega
  have hread : readLE32 (h1 ++ e ++ h2 ++ p) 40 = nt := by
    have g0 : (h1 ++ e ++ h2 ++ p).getD 40 0 = e.getD 0 0 := by
      simpa using hget 0 (by omega)
    rw [readLE32, g0, hget 1 (by omega), hget 2 (by omega), hget 3 (by omega)]
    rw [he_def]
    simp only [encodeLE32, List.getD_cons_zero, List.getD_cons_succ]
    omega
  have hts : toSigned32 (readLE32 (h1 ++ e ++ h2 ++ p) 40) = (nt : ℤ) := by
    rw [hread, toSigned32, if_pos hsmall]
  have hts0 : ¬ toSigned32 (readLE32 (h1 ++ e ++ h2 ++ p) 40) < 0 := by
    rw [hts]; exact not_lt.2 (Int.natCast_nonneg nt)
  have htsn : (toSigned32 (readLE32 (h1 ++ e ++ h2 ++ p) 40)).toNat = nt := by
    rw [hts]; exact Int.toNat_natCast nt
  have hdrop : (h1 ++ e ++ h2 ++ p).drop 56 = p := by
    rw [← hhdr]
    exact List.drop_left _ _
  have htake : ((h1 ++ e ++ h2 ++ p).drop 56).take (2 * 4 * nt) = p := by
    rw [hdrop, ← hplen, List.take_length]
  have hnotshort : ¬ p.length < 2 * 4 * nt := by
    rw [hplen]
    exact lt_irrefl _
  have hwords : leWords p = w1 ++ w2 := by
    rw [hp_def, leWords_flatMap_encodeLE32]
    exact (List.map_congr_left fun w hw => Nat.mod_eq_of_lt (hbound w hw)).trans
      (List.map_id _)
  simp only [load_binary_grm_file, if_neg hnot56, if_neg hts0, htsn, htake,
    if_neg hnotshort, hwords, List.take_left' hw1]

/-- Witness for C7 at a concrete synthetic buffer with one sample per block. -/
theorem decoder_round_trip_witness :
    (List.replicate 40 0 : List ℕ).length = 40 ∧
      (List.replicate 12 0 : List ℕ).length = 12 ∧ 0 < 1 ∧ 1 < 2 ^ 31 ∧
      ([3] : List ℕ).length = 1 ∧ ([5] : List ℕ).length = 1 ∧
      (∀ w ∈ ([3] ++ [5] : List ℕ), w < 2 ^ 32) ∧
      load_binary_grm_file
          (List.replicate 40 0 ++ encodeLE32 1 ++ List.replicate 12 0 ++
            (([3] ++ [5]).flatMap encodeLE32)) =
        .ok ((List.range 1).map (fun i => (i : ℚ) * 0.01),
          [3].map (fun w => float32FromBits w / 981.0)) := by
  refine ⟨by decide, by decide, by decide, by decide, by decide, by decide, by decide, ?_⟩
  exact decoder_round_trip (List.replicate 40 0) (List.replicate 12 0) 1 [3] [5]
    (by decide) (by decide) (by decide) (by decide) (by decide) (by decide) (by decide)

/-- Claim C10: a buffer of at least 56 bytes whose header declares `nt = 0` is
accepted, producing length-0 time and acceleration arrays; the decoder never
validates that the declared sample count is positive, so the returned record
breaks the `sample_count > 0` invariant of the data model. -/
theorem decoder_accepts_zero_nt (bytes : List ℕ) (h56 : 56 ≤ bytes.length)
    (h0 : readLE32 bytes 40 = 0) :
    load_binary_grm_file bytes = .ok ([], []) := by
  have h1 : ¬ bytes.length < 56 := not_lt.2 h56
  simp [load_binary_grm_file, h1, h0, toSigned32, leWords]

/-- Witness for C10: 56 zero bytes decode to the empty record. -/
theorem decoder_accepts_zero_nt_witness :
    56 ≤ (List.replicate 56 0 : List ℕ).length ∧
      readLE32 (List.replicate 56 0) 40 = 0 ∧
      load_binary_grm_file (List.replicate 56 0) = .ok ([], []) :=
  ⟨by decide, by decide, decoder_accepts_zero_nt _ (by decide) (by decide)⟩

/-- Failure case of the bandpass filter designer: the clamped cutoffs collapse
to an empty band. -/
inductive FilterError
  | InvalidFilterRange
  deriving DecidableEq

/-- Digital bandpass filter specification: the clamped cutoff frequencies in
Hz and the Butterworth order (fixed at 4 in the source). -/
structure FilterSpec where
  low_freq_hz : ℚ
  high_freq_hz : ℚ
  order : ℕ
  deriving DecidableEq

/-- Shallow embedding of `design_bandpass_filter_detailed`. The cutoff
computation and the clamping follow the source; the terminal `signal.butter`
call is external (scipy). Modelled from the spec: the external design step
rejects a collapsed band (`low >= high`) with `InvalidFilterRange`, and
otherwise returns the 4th order bandpass design for `[f_low, f_high]`. -/
def design_bandpass_filter_detailed (f_center fs bandwidth_factor : ℚ) :
    Except FilterError FilterSpec :=
  let f_low := f_center * (1 - bandwidth_factor)
  let f_high := f_center * (1 + bandwidth_factor)
  let nyquist := fs / 2
  let f_high := min f_high (nyquist * 0.95)
  let f_low := max f_low 0.01
  if f_low ≥ f_high then .error .InvalidFilterRange
  else .ok ⟨f_low, f_high, 4⟩

/-- Claim C8: when the clamped cutoffs `low = max(center * (1 - 0.2), 0.01)`
and `high = min(center * (1 + 0.2), 0.95 * (fs / 2))` collapse (`low >= high`)
the designer fails with `InvalidFilterRange`; when `low < high` it succeeds
with exactly those cutoffs, and in particular a 1.0 Hz center frequency at
100 Hz sampling yields `low = 0.8` and `high = 1.2`, both strictly below the
`0.95 * Nyquist` clamp of 47.5 Hz. -/
theorem bandpass_filter_range_cases (f_center fs : ℚ) :
    (min (f_center * (1 + 0.2)) (0.95 * (fs / 2)) ≤ max (f_center * (1 - 0.2)) 0.01 →
      design_bandpass_filter_detailed f_center fs 0.2 = .error .InvalidFilterRange) ∧
    (max (f_center * (1 - 0.2)) 0.01 < min (f_center * (1 + 0.2)) (0.95 * (fs / 2)) →
      design_bandpass_filter_detailed f_center fs 0.2 =
        .ok ⟨max (f_center * (1 - 0.2)) 0.01,
          min (f_center * (1 + 0.2)) (0.95 * (fs / 2)), 4⟩) ∧
    design_bandpass_filter_detailed 1 100 0.2 = .ok ⟨0.8, 1.2, 4⟩ ∧
    (0.8 : ℚ) < 0.95 * (100 / 2) ∧ (1.2 : ℚ) < 0.95 * (100 / 2) := by
  refine ⟨?_, ?_, ?_, by norm_num, by norm_num⟩
  · intro h
    rw [mul_comm (0.95 : ℚ) (fs / 2)] at h
    simp only [design_bandpass_filter_detailed]
    rw [if_pos h]
  · intro h
    rw [mul_comm (0.95 : ℚ) (fs / 2)] at h
    simp only [design_bandpass_filter_detailed]
    rw [if_neg (not_le.2 h), mul_comm (fs / 2) (0.95 : ℚ)]
  · simp only [design_bandpass_filter_detailed]
    rw [if_neg (by norm_num)]
    norm_num

/-- Witness for C8: a 0.001 Hz center frequency collapses the band after
clamping, and the 1.0 Hz center frequency at 100 Hz sampling succeeds. -/
theorem bandpass_filter_range_cases_witness :
    (min ((0.001 : ℚ) * (1 + 0.2)) (0.95 * (100 / 2)) ≤
        max ((0.001 : ℚ) * (1 - 0.2)) 0.01 ∧
      design_bandpass_filter_detailed 0.001 100 0.2 = .error .InvalidFilterRange) ∧
    (max ((1 : ℚ) * (1 - 0.2)) 0.01 < min ((1 : ℚ) * (1 + 0.2)) (0.95 * (100 / 2)) ∧
      design_bandpass_filter_detailed 1 100 0.2 =
        .ok ⟨max ((1 : ℚ) * (1 - 0.2)) 0.01,
          min ((1 : ℚ) * (1 + 0.2)) (0.95 * (100 / 2)), 4⟩) :=
  ⟨⟨by norm_num, (bandpass_filter_range_cases 0.001 100).1 (by norm_num)⟩,
    ⟨by norm_num, (bandpass_filter_range_cases 1 100).2.1 (by norm_num)⟩⟩

/-- Elementwise image under `f` commutes with indexing by `getD` when the
default is carried through `f`. -/
theorem getD_map_eq {α β : Type} (f : α → β) (d : α) (l : List α) (i : ℕ) :
    (l.map f).getD i (f d) = f (l.getD i d) := by
  rw [List.getD_eq_getElem?_getD, List.getD_eq_getElem?_getD, List.getElem?_map]
  cases l[i]? <;> rfl

/-- Running accumulation of trapezoid areas: the tail of
`cumulative_trapezoid` that follows its leading 0. Each step adds
`0.5 * (y[i] + y[i+1]) * (x[i+1] - x[i])` to the accumulator. -/
noncomputable def cumtrapzAux (acc : ℝ) : List ℝ → List ℝ → List ℝ
  | y0 :: y1 :: ys, x0 :: x1 :: xs =>
    (acc + 0.5 * (y0 + y1) * (x1 - x0)) ::
      cumtrapzAux (acc + 0.5 * (y0 + y1) * (x1 - x0)) (y1 :: ys) (x1 :: xs)
  | _, _ => []

/-- Embedding of scipy cumulative_trapezoid with `initial=0`: the cumulative
trapezoidal integral of the samples `y` over the time base `x`, starting
at 0. -/
noncomputable def cumulative_trapezoid (y x : List ℝ) : List ℝ :=
  0 :: cumtrapzAux 0 y x

/-- Shallow embedding of `calculate_arias_intensity_detailed`: the returned
cumulative Arias Intensity curve. The details dictionary of the source is
reporting only and is not modelled. -/
noncomputable def calculate_arias_intensity_detailed (time accel_g : List ℝ) : List ℝ :=
  let g : ℝ := 9.81
  let accel_ms2 := accel_g.map (fun a => a * g)
  let accel_squared := accel_ms2.map (fun a => a ^ 2)
  let cumulative_integral := cumulative_trapezoid accel_squared time
  cumulative_integral.map (fun v => Real.pi / (2 * g) * v)

/-- Partial trapezoidal sum: the integral of the first `m` steps of the
sampled integrand `f` over the sampled time base `t`. -/
noncomputable def trapPartialSum (f t : ℕ → ℝ) (m : ℕ) : ℝ :=
  ∑ j ∈ Finset.range m, 0.5 * (f j + f (j + 1)) * (t (j + 1) - t j)

/-- Reference Arias Intensity definition, written from the specification
text: convert acceleration to m/s^2 by multiplying by 9.81, square it,
cumulatively integrate by the trapezoidal rule (the curve starts at 0 at
`time[0]` and each step adds `0.5 * (f[i] + f[i+1]) * (time[i+1] - time[i])`),
and scale the whole cumulative curve by `pi / (2 * 9.81)`. -/
noncomputable def ariasIntensityReference (time accel_g : List ℝ) : List ℝ :=
  (List.range time.length).map (fun i =>
    Real.pi / (2 * 9.81) *
      trapPartialSum (fun j => (accel_g.getD j 0 * 9.81) ^ 2)
        (fun j => time.getD j 0) i)

/-- The accumulator recursion computes partial trapezoidal sums: entry `i` of
`cumtrapzAux acc y x` is `acc` plus the first `i + 1` trapezoid areas. -/
theorem cumtrapzAux_eq_partialSums (y : List ℝ) :
    ∀ (x : List ℝ) (acc : ℝ),
      cumtrapzAux acc y x =
        (List.range (min y.length x.length - 1)).map
          (fun i => acc +
            trapPartialSum (fun j => y.getD j 0) (fun j => x.getD j 0) (i + 1)) := by
  induction y with
  | nil => intro x acc; simp [cumtrapzAux]
  | cons y0 ytl ih =>
    intro x acc
    cases ytl with
    | nil =>
      cases x with
      | nil => simp [cumtrapzAux]
      | cons x0 xtl => simp [cumtrapzAux]
    | cons y1 ys =>
      cases x with
      | nil => simp [cumtrapzAux]
      | cons x0 xtl =>
        cases xtl with
        | nil => simp [cumtrapzAux]
        | cons x1 xs =>
          rw [cumtrapzAux, ih (x1 :: xs) (acc + 0.5 * (y0 + y1) * (x1 - x0))]
          simp only [List.length_cons]
          have hmin : min (ys.length + 1 + 1) (xs.length + 1 + 1) - 1 =
              (min (ys.length + 1) (xs.length + 1) - 1) + 1 := by omega
          rw [hmin, List.range_succ_eq_map, List.map_cons, List.map_map]
          congr 1
          · simp [trapPartialSum, Finset.sum_range_one]
          · apply List.map_congr_left
            intro i hi
            simp only [Function.comp_apply, Nat.succ_eq_add_one]
            rw [trapPartialSum, trapPartialSum, Finset.sum_range_succ' _ (i + 1)]
            simp only [List.getD_cons_succ, List.getD_cons_zero]
            ring

/-- Over equal-length nonempty inputs, `cumulative_trapezoid` is the list of
all partial trapezoidal sums. -/
theorem cumulative_trapezoid_eq_partialSums (y x : List ℝ)
    (hlen : y.length = x.length) (hpos : 0 < x.length) :
    cumulative_trapezoid y x =
      (List.range x.length).map
        (fun i => trapPartialSum (fun j => y.getD j 0) (fun j => x.getD j 0) i) := by
  obtain ⟨m, hm⟩ : ∃ m, x.length = m + 1 := ⟨x.length - 1, by omega⟩
  rw [cumulative_trapezoid, cumtrapzAux_eq_partialSums, hlen, min_self, hm,
    Nat.add_sub_cancel, List.range_succ_eq_map, List.map_cons, List.map_map]
  simp [trapPartialSum, Function.comp, Nat.succ_eq_add_one]

/-- Claim C1: for equal positive-length time and acceleration inputs, the
energy integrator output equals the reference Arias Intensity definition,
sample for sample. -/
theorem arias_intensity_matches_reference (time accel_g : List ℝ)
    (hlen : accel_g.length = time.length) (hpos : 0 < time.length) :
    calculate_arias_intensity_detailed time accel_g =
      ariasIntensityReference time accel_g := by
  rw [calculate_arias_intensity_detailed]
  simp only [List.map_map, Function.comp_def]
  rw [cumulative_trapezoid_eq_partialSums _ _ (by simp [hlen]) hpos,
    ariasIntensityReference, List.map_map]
  apply List.map_congr_left
  intro i hi
  simp only [Function.comp_apply]
  congr 1
  rw [trapPartialSum, trapPartialSum]
  apply Finset.sum_congr rfl
  intro j hj
  have hz : ((0 : ℝ) * 9.81) ^ 2 = 0 := by norm_num
  have h1 := getD_map_eq (fun a => (a * 9.81) ^ 2) 0 accel_g j
  have h2 := getD_map_eq (fun a => (a * 9.81) ^ 2) 0 accel_g (j + 1)
  simp only [hz] at h1 h2
  rw [h1, h2]

/-- Witness for C1 at a concrete two-sample record. -/
theorem arias_intensity_matches_reference_witness :
    ([1, 2] : List ℝ).length = ([0, 1] : List ℝ).length ∧
      0 < ([0, 1] : List ℝ).length ∧
      calculate_arias_intensity_detailed [0, 1] [1, 2] =
        ariasIntensityReference [0, 1] [1, 2] :=
  ⟨by decide, by decide, arias_intensity_matches_reference [0, 1] [1, 2] (by decide) (by decide)⟩

/-- Appending the running trapezoid areas to a start value is monotone
non-decreasing whenever the integrand samples are non-negative and the time
base is non-decreasing. -/
theorem cumtrapzAux_chain (y : List ℝ) :
    ∀ (x : List ℝ) (acc : ℝ), (∀ v ∈ y, 0 ≤ v) → x.Chain' (· ≤ ·) →
      (acc :: cumtrapzAux acc y x).Chain' (· ≤ ·) := by
  induction y with
  | nil => intro x acc _ _; simp [cumtrapzAux]
  | cons y0 ytl ih =>
    intro x acc hy hx
    cases ytl with
    | nil =>
      cases x with
      | nil => simp [cumtrapzAux]
      | cons x0 xtl => simp [cumtrapzAux]
    | cons y1 ys =>
      cases x with
      | nil => simp [cumtrapzAux]
      | cons x0 xtl =>
        cases xtl with
        | nil => simp [cumtrapzAux]
        | cons x1 xs =>
          rw [cumtrapzAux]
          have hy0 : 0 ≤ y0 := hy y0 (by simp)
          have hy1 : 0 ≤ y1 := hy y1 (by simp)
          have hx01 : x0 ≤ x1 := (List.chain'_cons.1 hx).1
          refine List.chain'_cons.2 ⟨?_, ih (x1 :: xs) _ ?_ ?_⟩
          · nlinarith
          · intro v hv
            exact hy v (List.mem_cons_of_mem _ hv)
          · exact hx.tail

/-- Claim C2: for a valid record (strictly increasing time), the cumulative
energy curve starts at 0 and is monotonically non-decreasing. -/
theorem arias_curve_invariants (time accel_g : List ℝ)
    (_hlen : time.length = accel_g.length) (ht : time.Chain' (· < ·)) :
    (calculate_arias_intensity_detailed time accel_g).getD 0 0 = 0 ∧
    (calculate_arias_intensity_detailed time accel_g).Chain' (· ≤ ·) := by
  have hscale : 0 ≤ Real.pi / (2 * 9.81) := by positivity
  constructor
  · simp [calculate_arias_intensity_detailed, cumulative_trapezoid]
  · rw [calculate_arias_intensity_detailed]
    rw [cumulative_trapezoid, List.chain'_map]
    have hchain := cumtrapzAux_chain
      ((accel_g.map (fun a => a * 9.81)).map (fun a => a ^ 2)) time 0
      (by intro v hv
          simp only [List.mem_map] at hv
          obtain ⟨a, _, rfl⟩ := hv
          exact sq_nonneg a)
      (ht.imp fun a b h => le_of_lt h)
    exact hchain.imp fun a b h => mul_le_mul_of_nonneg_left h hscale

/-- Witness for C2 at a concrete two-sample record. -/
theorem arias_curve_invariants_witness :
    ([0, 1] : List ℝ).length = ([1, 2] : List ℝ).length ∧
      ([0, 1] : List ℝ).Chain' (· < ·) ∧
      ((calculate_arias_intensity_detailed [0, 1] [1, 2]).getD 0 0 = 0 ∧
        (calculate_arias_intensity_detailed [0, 1] [1, 2]).Chain' (· ≤ ·)) :=
  ⟨by decide, by norm_num [List.chain'_cons],
    arias_curve_invariants [0, 1] [1, 2] (by decide) (by norm_num [List.chain'_cons])⟩

section Extractor

variable {α : Type} [LinearOrderedField α]

/-- Model of np.interp at a single query `x` against sample points `xp` with
values `fp` (equal lengths; numpy documents an increasing `xp`). With `k` the
first index whose sample point exceeds `x`, numpy returns `fp[0]` when `x`
lies before all sample points, `fp[-1]` when it lies at or after the last
one, and otherwise interpolates linearly inside the bracketing segment from
`k - 1` to `k`. -/
def npInterp (x : α) (xp fp : List α) : α :=
  let k := xp.findIdx (fun v => decide (x < v))
  if k = 0 then fp.getD 0 0
  else if k = xp.length then fp.getD (fp.length - 1) 0
  else
    fp.getD (k - 1) 0 +
      (fp.getD k 0 - fp.getD (k - 1) 0) * (x - xp.getD (k - 1) 0) /
        (xp.getD k 0 - xp.getD (k - 1) 0)

/-- Shallow embedding of `find_5_95_duration_detailed`: returns the triple
`(duration_5_95, t5, t95)`. The details dictionary of the source is
reporting only and is not modelled. -/
def find_5_95_duration_detailed (time arias_intensity : List α) : α × α × α :=
  let total_arias := arias_intensity.getLast?.getD 0
  if total_arias = 0 then (0, 0, 0)
  else
    let normalized_arias := arias_intensity.map (fun v => v / total_arias)
    let idx_5 := (List.range normalized_arias.length).filter
      (fun i => decide ((0.05 : α) ≤ normalized_arias.getD i 0))
    let idx_95 := (List.range normalized_arias.length).filter
      (fun i => decide ((0.95 : α) ≤ normalized_arias.getD i 0))
    if idx_5.length = 0 ∨ idx_95.length = 0 then (0, 0, 0)
    else
      let t5 := npInterp 0.05 normalized_arias time
      let t95 := npInterp 0.95 normalized_arias time
      (t95 - t5, t5, t95)

/-- Entries strictly before the found index falsify the predicate: for the
search used by `npInterp` they are at most `x`. -/
theorem xp_le_of_lt_findIdx {x : α} {xp : List α} {k i : ℕ}
    (hk : xp.findIdx (fun v => decide (x < v)) = k) (hi : i < k) :
    xp.getD i 0 ≤ x := by
  subst hk
  have hlen : i < xp.length := lt_of_lt_of_le hi (List.findIdx_le_length _)
  have hfalse := List.not_of_lt_findIdx hi
  rw [List.getD_eq_getElem xp 0 hlen]
  simpa using hfalse

/-- The entry at the found index satisfies the predicate when it is in
range: for the search used by `npInterp` it strictly exceeds `x`. -/
theorem lt_xp_at_findIdx {x : α} {xp : List α} {k : ℕ}
    (hk : xp.findIdx (fun v => decide (x < v)) = k) (hlt : k < xp.length) :
    x < xp.getD k 0 := by
  subst hk
  have htrue := @List.findIdx_getElem _ (fun v => decide (x < v)) xp hlt
  rw [List.getD_eq_getElem xp 0 hlt]
  simpa using htrue

/-- A position where the predicate holds bounds `findIdx` from above. -/
theorem findIdx_le_of_true {β : Type} (p : β → Bool) (l : List β) (i : ℕ)
    (hi : i < l.length) (hp : p l[i] = true) : l.findIdx p ≤ i := by
  by_contra hcon
  have hfalse := List.not_of_lt_findIdx (not_le.1 hcon)
  rw [hp] at hfalse
  exact absurd hfalse (by simp)

/-- findIdx is antitone in the predicate: a pointwise weaker predicate is
satisfied no later. -/
theorem findIdx_mono_pred {β : Type} (p q : β → Bool) (l : List β)
    (hpq : ∀ v, q v = true → p v = true) : l.findIdx p ≤ l.findIdx q := by
  rcases lt_or_ge (l.findIdx q) l.length with h | h
  · exact findIdx_le_of_true p l _ h (hpq _ (@List.findIdx_getElem _ q l h))
  · exact le_trans (List.findIdx_le_length p) h

/-- Indexing by `getD` is monotone along a non-decreasing list. -/
theorem getD_mono_of_chain {β : Type} [LinearOrder β] (d : β) {l : List β}
    (hl : l.Chain' (· ≤ ·)) {i j : ℕ} (hij : i ≤ j) (hj : j < l.length) :
    l.getD i d ≤ l.getD j d := by
  have hp := List.chain'_iff_pairwise.1 hl
  rw [List.getD_eq_getElem l d (lt_of_le_of_lt hij hj), List.getD_eq_getElem l d hj]
  rcases eq_or_lt_of_le hij with rfl | hlt
  · exact le_refl _
  · exact (List.pairwise_iff_getElem.1 hp) i j (lt_of_le_of_lt hij hj) hj hlt

/-- Indexing by `getD` is strictly monotone along a strictly increasing
list. -/
theorem getD_strict_mono_of_chain {β : Type} [LinearOrder β] (d : β) {l : List β}
    (hl : l.Chain' (· < ·)) {i j : ℕ} (hij : i < j) (hj : j < l.length) :
    l.getD i d < l.getD j d := by
  have hp := List.chain'_iff_pairwise.1 hl
  rw [List.getD_eq_getElem l d (lt_trans hij hj), List.getD_eq_getElem l d hj]
  exact (List.pairwise_iff_getElem.1 hp) i j (lt_trans hij hj) hj hij

/-- Branch reduction for `npInterp`: the query lies before all sample
points. -/
theorem npInterp_eq_head {x : α} {xp fp : List α}
    (h0 : xp.findIdx (fun v => decide (x < v)) = 0) :
    npInterp x xp fp = fp.getD 0 0 := by
  simp [npInterp, h0]

/-- Branch reduction for `npInterp`: the query lies at or after the last
sample point. -/
theorem npInterp_eq_last {x : α} {xp fp : List α}
    (h0 : xp.findIdx (fun v => decide (x < v)) ≠ 0)
    (hn : xp.findIdx (fun v => decide (x < v)) = xp.length) :
    npInterp x xp fp = fp.getD (fp.length - 1) 0 := by
  simp only [npInterp]
  rw [if_neg h0, if_pos hn]

/-- Branch reduction for `npInterp`: the query is interpolated inside the
bracketing segment. -/
theorem npInterp_eq_segment {x : α} {xp fp : List α} {k : ℕ}
    (hk : xp.findIdx (fun v => decide (x < v)) = k) (h0 : k ≠ 0)
    (hn : k ≠ xp.length) :
    npInterp x xp fp =
      fp.getD (k - 1) 0 +
        (fp.getD k 0 - fp.getD (k - 1) 0) * (x - xp.getD (k - 1) 0) /
          (xp.getD k 0 - xp.getD (k - 1) 0) := by
  subst hk
  simp only [npInterp]
  rw [if_neg h0, if_neg hn]

/-- A linear interpolation inside a segment stays between the segment
endpoint values. -/
theorem interpStep_bounds {flo fhi xlo xhi x : α} (h1 : xlo ≤ x) (h2 : x < xhi)
    (h3 : flo ≤ fhi) :
    flo ≤ flo + (fhi - flo) * (x - xlo) / (xhi - xlo) ∧
      flo + (fhi - flo) * (x - xlo) / (xhi - xlo) ≤ fhi := by
  have hden : 0 < xhi - xlo := by linarith
  constructor
  · have hnn : 0 ≤ (fhi - flo) * (x - xlo) / (xhi - xlo) :=
      div_nonneg (mul_nonneg (by linarith) (by linarith)) hden.le
    linarith
  · have key : (fhi - flo) * (x - xlo) ≤ (fhi - flo) * (xhi - xlo) := by
      nlinarith [mul_nonneg (sub_nonneg.2 h3) (sub_nonneg.2 h2.le)]
    have hdiv : (fhi - flo) * (x - xlo) / (xhi - xlo) ≤ fhi - flo := by
      rw [div_le_iff₀ hden]
      exact key
    linarith

/-- The output of `npInterp` lies between the first and last value samples
whenever the value samples are non-decreasing. -/
theorem npInterp_bounds (x : α) {xp fp : List α} (hfp : fp.Chain' (· ≤ ·))
    (hlen : xp.length = fp.length) (hne : xp ≠ []) :
    fp.getD 0 0 ≤ npInterp x xp fp ∧ npInterp x xp fp ≤ fp.getD (fp.length - 1) 0 := by
  have hxplen : 0 < xp.length := List.length_pos.2 hne
  have hfplen : 0 < fp.length := hlen ▸ hxplen
  have hkle : xp.findIdx (fun v => decide (x < v)) ≤ xp.length :=
    List.findIdx_le_length _
  rcases eq_or_ne (xp.findIdx (fun v => decide (x < v))) 0 with h0 | h0
  · rw [npInterp_eq_head h0]
    exact ⟨le_refl _, getD_mono_of_chain 0 hfp (Nat.zero_le _) (by omega)⟩
  · rcases eq_or_ne (xp.findIdx (fun v => decide (x < v))) xp.length with hn | hn
    · rw [npInterp_eq_last h0 hn]
      exact ⟨getD_mono_of_chain 0 hfp (Nat.zero_le _) (by omega), le_refl _⟩
    · have hklt : xp.findIdx (fun v => decide (x < v)) < xp.length :=
        lt_of_le_of_ne hkle hn
      have hxlo : xp.getD (xp.findIdx (fun v => decide (x < v)) - 1) 0 ≤ x :=
        xp_le_of_lt_findIdx rfl (by omega)
      have hxhi : x < xp.getD (xp.findIdx (fun v => decide (x < v))) 0 :=
        lt_xp_at_findIdx rfl hklt
      have hflo : fp.getD (xp.findIdx (fun v => decide (x < v)) - 1) 0 ≤
          fp.getD (xp.findIdx (fun v => decide (x < v))) 0 :=
        getD_mono_of_chain 0 hfp (by omega) (by omega)
      rw [npInterp_eq_segment rfl h0 hn]
      obtain ⟨hb1, hb2⟩ := interpStep_bounds hxlo hxhi hflo
      constructor
      · exact le_trans (getD_mono_of_chain 0 hfp (Nat.zero_le _) (by omega)) hb1
      · exact le_trans hb2 (getD_mono_of_chain 0 hfp (by omega) (by omega))

/-- The output of `npInterp` is monotone in the query whenever the value
samples are non-decreasing. -/
theorem npInterp_mono {a b : α} (hab : a ≤ b) {xp fp : List α}
    (hfp : fp.Chain' (· ≤ ·)) (hlen : xp.length = fp.length) (hne : xp ≠ []) :
    npInterp a xp fp ≤ npInterp b xp fp := by
  have hxplen : 0 < xp.length := List.length_pos.2 hne
  have hfplen : 0 < fp.length := hlen ▸ hxplen
  have hkab : xp.findIdx (fun v => decide (a < v)) ≤
      xp.findIdx (fun v => decide (b < v)) := by
    apply findIdx_mono_pred
    intro v hv
    simp only [decide_eq_true_eq] at hv ⊢
    exact lt_of_le_of_lt hab hv
  have hkleb : xp.findIdx (fun v => decide (b < v)) ≤ xp.length :=
    List.findIdx_le_length _
  rcases eq_or_ne (xp.findIdx (fun v => decide (a < v))) 0 with h0a | h0a
  · rw [npInterp_eq_head h0a]
    exact (npInterp_bounds b hfp hlen hne).1
  · have h0b : xp.findIdx (fun v => decide (b < v)) ≠ 0 := by omega
    rcases eq_or_ne (xp.findIdx (fun v => decide (a < v))) xp.length with hna | hna
    · have hnb : xp.findIdx (fun v => decide (b < v)) = xp.length := by omega
      rw [npInterp_eq_last h0a hna, npInterp_eq_last h0b hnb]
    · have hklta : xp.findIdx (fun v => decide (a < v)) < xp.length := by omega
      have hxloa : xp.getD (xp.findIdx (fun v => decide (a < v)) - 1) 0 ≤ a :=
        xp_le_of_lt_findIdx rfl (by omega)
      have hxhia : a < xp.getD (xp.findIdx (fun v => decide (a < v))) 0 :=
        lt_xp_at_findIdx rfl hklta
      have hfloa : fp.getD (xp.findIdx (fun v => decide (a < v)) - 1) 0 ≤
          fp.getD (xp.findIdx (fun v => decide (a < v))) 0 :=
        getD_mono_of_chain 0 hfp (by omega) (by omega)
      rw [npInterp_eq_segment rfl h0a hna]
      rcases eq_or_ne (xp.findIdx (fun v => decide (b < v)))
          (xp.findIdx (fun v => decide (a < v))) with heq | hneq
      · have hxhib : b < xp.getD (xp.findIdx (fun v => decide (a < v))) 0 := by
          have := lt_xp_at_findIdx (x := b) rfl (heq ▸ hklta)
          rwa [heq] at this
        rw [npInterp_eq_segment heq h0a hna]
        apply add_le_add_left
        rw [div_le_div_iff₀ (by linarith) (by linarith)]
        have hmul := mul_le_mul_of_nonneg_left
          (sub_le_sub_right hab (xp.getD (xp.findIdx (fun v => decide (a < v)) - 1) 0))
          (sub_nonneg.2 hfloa)
        nlinarith [hmul]
      · have hlt : xp.findIdx (fun v => decide (a < v)) <
            xp.findIdx (fun v => decide (b < v)) := lt_of_le_of_ne hkab (Ne.symm hneq)
        have hEa : npInterp a xp fp ≤ fp.getD (xp.findIdx (fun v => decide (a < v))) 0 := by
          rw [npInterp_eq_segment rfl h0a hna]
          exact (interpStep_bounds hxloa hxhia hfloa).2
        have hEb : fp.getD (xp.findIdx (fun v => decide (b < v)) - 1) 0 ≤
            npInterp b xp fp := by
          rcases eq_or_ne (xp.findIdx (fun v => decide (b < v))) xp.length with hnb | hnb
          · rw [npInterp_eq_last h0b hnb, hnb, hlen]
          · have hkltb : xp.findIdx (fun v => decide (b < v)) < xp.length := by omega
            have hxlob : xp.getD (xp.findIdx (fun v => decide (b < v)) - 1) 0 ≤ b :=
              xp_le_of_lt_findIdx rfl (by omega)
            have hxhib : b < xp.getD (xp.findIdx (fun v => decide (b < v))) 0 :=
              lt_xp_at_findIdx rfl hkltb
            have hflob : fp.getD (xp.findIdx (fun v => decide (b < v)) - 1) 0 ≤
                fp.getD (xp.findIdx (fun v => decide (b < v))) 0 :=
              getD_mono_of_chain 0 hfp (by omega) (by omega)
            rw [npInterp_eq_segment rfl h0b hnb]
            exact (interpStep_bounds hxlob hxhib hflob).1
        have hmid : fp.getD (xp.findIdx (fun v => decide (a < v))) 0 ≤
            fp.getD (xp.findIdx (fun v => decide (b < v)) - 1) 0 :=
          getD_mono_of_chain 0 hfp (by omega) (by omega)
        rw [npInterp_eq_segment rfl h0a hna] at hEa
        exact le_trans hEa (le_trans hmid hEb)

/-- First-crossing piecewise-linear interpolation, written from the
specification text: find the first sample at which the normalized curve
reaches the threshold `x`, take the bracketing samples around that crossing,
and interpolate the crossing time proportionally between them; when the curve
already starts at or above the threshold the crossing time is the first time
sample. -/
def crossingTimeSpec (x : α) (normalized time : List α) : α :=
  let k := normalized.findIdx (fun v => decide (x ≤ v))
  if k = 0 then time.getD 0 0
  else
    time.getD (k - 1) 0 +
      (time.getD k 0 - time.getD (k - 1) 0) * (x - normalized.getD (k - 1) 0) /
        (normalized.getD k 0 - normalized.getD (k - 1) 0)

/-- Entries strictly before the first crossing lie strictly below the
threshold. -/
theorem xp_lt_of_lt_crossingIdx {x : α} {xp : List α} {k i : ℕ}
    (hk : xp.findIdx (fun v => decide (x ≤ v)) = k) (hi : i < k) :
    xp.getD i 0 < x := by
  subst hk
  have hlen : i < xp.length := lt_of_lt_of_le hi (List.findIdx_le_length _)
  have hfalse := List.not_of_lt_findIdx hi
  rw [List.getD_eq_getElem xp 0 hlen]
  simpa using hfalse

/-- The entry at the first crossing reaches the threshold when it is in
range. -/
theorem le_xp_at_crossingIdx {x : α} {xp : List α} {k : ℕ}
    (hk : xp.findIdx (fun v => decide (x ≤ v)) = k) (hlt : k < xp.length) :
    x ≤ xp.getD k 0 := by
  subst hk
  have htrue := @List.findIdx_getElem _ (fun v => decide (x ≤ v)) xp hlt
  rw [List.getD_eq_getElem xp 0 hlt]
  simpa using htrue

/-- Interpolating exactly to the far end of a segment lands on the far
endpoint value. -/
theorem interp_ratio_one {flo fhi xlo xhi : α} (hne : xhi - xlo ≠ 0) :
    flo + (fhi - flo) * (xhi - xlo) / (xhi - xlo) = fhi := by
  rw [mul_div_assoc, div_self hne, mul_one]
  ring

/-- On a strictly increasing sample-point list whose last entry is at least
the query, numpy interpolation agrees with first-crossing bracketed
interpolation. -/
theorem npInterp_eq_crossingTimeSpec {x : α} {xp fp : List α}
    (hxp : xp.Chain' (· < ·)) (hlen : xp.length = fp.length) (hne : xp ≠ [])
    (hlast : x ≤ xp.getD (xp.length - 1) 0) :
    npInterp x xp fp = crossingTimeSpec x xp fp := by
  have hxplen : 0 < xp.length := List.length_pos.2 hne
  have hk2len : xp.findIdx (fun v => decide (x ≤ v)) < xp.length := by
    have hle : xp.findIdx (fun v => decide (x ≤ v)) ≤ xp.length - 1 := by
      apply findIdx_le_of_true
      rw [← List.getD_eq_getElem xp 0 (by omega)]
      simpa using hlast
    omega
  have hk21 : xp.findIdx (fun v => decide (x ≤ v)) ≤
      xp.findIdx (fun v => decide (x < v)) := by
    apply findIdx_mono_pred
    intro v hv
    simp only [decide_eq_true_eq] at hv ⊢
    exact le_of_lt hv
  have hxk2 := le_xp_at_crossingIdx rfl hk2len
  rcases lt_or_eq_of_le hxk2 with hlt | heq
  · -- the first crossing is strict: both searches find the same index
    have hk12 : xp.findIdx (fun v => decide (x < v)) ≤
        xp.findIdx (fun v => decide (x ≤ v)) := by
      apply findIdx_le_of_true
      rw [← List.getD_eq_getElem xp 0 hk2len]
      simpa using hlt
    have hkeq : xp.findIdx (fun v => decide (x < v)) =
        xp.findIdx (fun v => decide (x ≤ v)) := le_antisymm hk12 hk21
    rcases eq_or_ne (xp.findIdx (fun v => decide (x ≤ v))) 0 with h0 | h0
    · rw [npInterp_eq_head (by rw [hkeq, h0]), crossingTimeSpec]
      simp only [h0, if_pos]
    · rw [npInterp_eq_segment (hkeq.trans rfl) h0 (by omega), crossingTimeSpec]
      simp only [if_neg h0]
  · -- the threshold is hit exactly at a sample
    have hk1low : ∀ i ≤ xp.findIdx (fun v => decide (x ≤ v)),
        ¬ x < xp.getD i 0 := by
      intro i hi
      rcases lt_or_eq_of_le hi with hilt | rfl
      · exact not_lt.2 (le_of_lt (xp_lt_of_lt_crossingIdx rfl hilt))
      · rw [← heq]
        exact lt_irrefl x
    have hk1ge : xp.findIdx (fun v => decide (x ≤ v)) + 1 ≤
        xp.findIdx (fun v => decide (x < v)) := by
      by_contra hcon
      have hle : xp.findIdx (fun v => decide (x < v)) ≤
          xp.findIdx (fun v => decide (x ≤ v)) := by omega
      have hlt2 : xp.findIdx (fun v => decide (x < v)) < xp.length := by omega
      exact hk1low _ hle (lt_xp_at_findIdx rfl hlt2)
    have hk1le : xp.findIdx (fun v => decide (x < v)) ≤
        xp.findIdx (fun v => decide (x ≤ v)) + 1 := by
      rcases eq_or_ne (xp.findIdx (fun v => decide (x ≤ v)) + 1) xp.length with hn | hn
      · rw [hn]
        exact List.findIdx_le_length _
      · apply findIdx_le_of_true _ _ _ (by omega)
        rw [← List.getD_eq_getElem xp 0 (by omega)]
        have hstep : xp.getD (xp.findIdx (fun v => decide (x ≤ v))) 0 <
            xp.getD (xp.findIdx (fun v => decide (x ≤ v)) + 1) 0 :=
          getD_strict_mono_of_chain 0 hxp (Nat.lt_succ_self _) (by omega)
        rw [← heq] at hstep
        simpa using hstep
    have hk1 : xp.findIdx (fun v => decide (x < v)) =
        xp.findIdx (fun v => decide (x ≤ v)) + 1 := le_antisymm hk1le hk1ge
    have h10 : xp.findIdx (fun v => decide (x < v)) ≠ 0 := by omega
    have hfpval : crossingTimeSpec x xp fp =
        fp.getD (xp.findIdx (fun v => decide (x ≤ v))) 0 := by
      rw [crossingTimeSpec]
      rcases eq_or_ne (xp.findIdx (fun v => decide (x ≤ v))) 0 with h0 | h0
      · simp only [h0, if_pos]
      · simp only [if_neg h0]
        have hden : xp.getD (xp.findIdx (fun v => decide (x ≤ v))) 0 -
            xp.getD (xp.findIdx (fun v => decide (x ≤ v)) - 1) 0 ≠ 0 := by
          have := getD_strict_mono_of_chain 0 hxp
            (show xp.findIdx (fun v => decide (x ≤ v)) - 1 <
              xp.findIdx (fun v => decide (x ≤ v)) by omega) hk2len
          exact ne_of_gt (sub_pos.2 this)
        have hx : x - xp.getD (xp.findIdx (fun v => decide (x ≤ v)) - 1) 0 =
            xp.getD (xp.findIdx (fun v => decide (x ≤ v))) 0 -
              xp.getD (xp.findIdx (fun v => decide (x ≤ v)) - 1) 0 := by
          simpa using congrArg
            (fun t => t - xp.getD (xp.findIdx (fun v => decide (x ≤ v)) - 1) 0) heq
        rw [hx]
        exact interp_ratio_one hden
    rcases eq_or_ne (xp.findIdx (fun v => decide (x < v))) xp.length with hn | hn
    · rw [npInterp_eq_last h10 hn, hfpval]
      have : xp.findIdx (fun v => decide (x ≤ v)) = fp.length - 1 := by omega
      rw [this]
    · rw [npInterp_eq_segment rfl h10 hn, hfpval]
      have hidx : xp.findIdx (fun v => decide (x < v)) - 1 =
          xp.findIdx (fun v => decide (x ≤ v)) := by omega
      rw [hidx, hk1, ← heq]
      rw [sub_self, mul_zero, zero_div, add_zero]

/-- The last normalized sample of a curve with nonzero total equals 1. -/
theorem normalized_getD_last {arias : List α} (_hpos : 0 < arias.length)
    (htot : arias.getLast?.getD 0 ≠ 0) :
    (arias.map (fun v => v / arias.getLast?.getD 0)).getD
      ((arias.map (fun v => v / arias.getLast?.getD 0)).length - 1) 0 = 1 := by
  have h1 := getD_map_eq (fun v => v / arias.getLast?.getD 0) 0 arias
    ((arias.map (fun v => v / arias.getLast?.getD 0)).length - 1)
  rw [zero_div] at h1
  rw [h1, List.length_map]
  have h2 : arias.getD (arias.length - 1) 0 = arias.getLast?.getD 0 := by
    rw [List.getLast?_eq_getElem?, List.getD_eq_getElem?_getD]
  rw [h2, div_self htot]

/-- The extractor returns the degenerate window when the total energy is
zero. -/
theorem find_5_95_total_zero {time arias : List α}
    (h : arias.getLast?.getD 0 = 0) :
    find_5_95_duration_detailed time arias = (0, 0, 0) := by
  simp [find_5_95_duration_detailed, h]

/-- The extractor returns the degenerate window when one of the threshold
index sets is empty. -/
theorem find_5_95_no_crossing {time arias : List α}
    (h : ((List.range (arias.map (fun v => v / arias.getLast?.getD 0)).length).filter
        (fun i => decide ((0.05 : α) ≤
          (arias.map (fun v => v / arias.getLast?.getD 0)).getD i 0))).length = 0 ∨
      ((List.range (arias.map (fun v => v / arias.getLast?.getD 0)).length).filter
        (fun i => decide ((0.95 : α) ≤
          (arias.map (fun v => v / arias.getLast?.getD 0)).getD i 0))).length = 0) :
    find_5_95_duration_detailed time arias = (0, 0, 0) := by
  rcases eq_or_ne (arias.getLast?.getD 0) 0 with h0 | h0
  · exact find_5_95_total_zero h0
  · simp only [find_5_95_duration_detailed, if_neg h0]
    rw [if_pos h]

/-- On a positive-length curve with nonzero total, the extractor reaches the
interpolation branch and returns the two interpolated threshold times. -/
theorem find_5_95_eq_interp {time arias : List α} (hpos : 0 < arias.length)
    (htot : arias.getLast?.getD 0 ≠ 0) :
    find_5_95_duration_detailed time arias =
      (npInterp 0.95 (arias.map (fun v => v / arias.getLast?.getD 0)) time -
          npInterp 0.05 (arias.map (fun v => v / arias.getLast?.getD 0)) time,
        npInterp 0.05 (arias.map (fun v => v / arias.getLast?.getD 0)) time,
        npInterp 0.95 (arias.map (fun v => v / arias.getLast?.getD 0)) time) := by
  have hlast := normalized_getD_last hpos htot
  have hmem : ∀ c : α, c ≤ 1 →
      ((arias.map (fun v => v / arias.getLast?.getD 0)).length - 1) ∈
        (List.range (arias.map (fun v => v / arias.getLast?.getD 0)).length).filter
          (fun i => decide (c ≤
            (arias.map (fun v => v / arias.getLast?.getD 0)).getD i 0)) := by
    intro c hc
    rw [List.mem_filter]
    constructor
    · rw [List.mem_range, List.length_map]
      omega
    · rw [hlast]
      simpa using hc
  have hne5 := hmem 0.05 (by norm_num)
  have hne95 := hmem 0.95 (by norm_num)
  have hcond : ¬ (((List.range (arias.map (fun v => v / arias.getLast?.getD 0)).length).filter
        (fun i => decide ((0.05 : α) ≤
          (arias.map (fun v => v / arias.getLast?.getD 0)).getD i 0))).length = 0 ∨
      ((List.range (arias.map (fun v => v / arias.getLast?.getD 0)).length).filter
        (fun i => decide ((0.95 : α) ≤
          (arias.map (fun v => v / arias.getLast?.getD 0)).getD i 0))).length = 0) := by
    rw [not_or]
    constructor
    · rw [List.length_eq_zero]
      intro hnil
      rw [hnil] at hne5
      exact absurd hne5 (List.not_mem_nil _)
    · rw [List.length_eq_zero]
      intro hnil
      rw [hnil] at hne95
      exact absurd hne95 (List.not_mem_nil _)
  simp only [find_5_95_duration_detailed, if_neg htot]
  rw [if_neg hcond]

end Extractor

/-- Claim C3: on a non-degenerate energy curve (non-decreasing samples with
positive total) over a non-decreasing time base starting at 0, the extractor
returns `0 <= t5 <= t95 <= time[-1]`, and the returned duration equals
`t95 - t5` and hence is non-negative. -/
theorem duration_window_bounds (time arias : List ℚ)
    (hlen : time.length = arias.length) (hpos : 0 < arias.length)
    (ht0 : time.getD 0 0 = 0) (htmono : time.Chain' (· ≤ ·))
    (_hamono : arias.Chain' (· ≤ ·)) (htot : 0 < arias.getLast?.getD 0) :
    0 ≤ (find_5_95_duration_detailed time arias).2.1 ∧
      (find_5_95_duration_detailed time arias).2.1 ≤
        (find_5_95_duration_detailed time arias).2.2 ∧
      (find_5_95_duration_detailed time arias).2.2 ≤ time.getLast?.getD 0 ∧
      (find_5_95_duration_detailed time arias).1 =
        (find_5_95_duration_detailed time arias).2.2 -
          (find_5_95_duration_detailed time arias).2.1 ∧
      0 ≤ (find_5_95_duration_detailed time arias).1 := by
  rw [find_5_95_eq_interp hpos (ne_of_gt htot)]
  have hNlen : (arias.map (fun v => v / arias.getLast?.getD 0)).length = time.length := by
    simp [hlen]
  have hNne : arias.map (fun v => v / arias.getLast?.getD 0) ≠ [] := by
    rw [← List.length_pos, hNlen, hlen]
    exact hpos
  have hb5 := npInterp_bounds (0.05 : ℚ) htmono hNlen hNne
  have hb95 := npInterp_bounds (0.95 : ℚ) htmono hNlen hNne
  have hm := npInterp_mono (show (0.05 : ℚ) ≤ 0.95 by norm_num) htmono hNlen hNne
  have hlast : time.getD (time.length - 1) 0 = time.getLast?.getD 0 := by
    rw [List.getLast?_eq_getElem?, List.getD_eq_getElem?_getD]
  refine ⟨?_, hm, ?_, rfl, ?_⟩
  · exact le_trans (le_of_eq ht0.symm) hb5.1
  · exact le_trans hb95.2 (le_of_eq hlast)
  · show (0 : ℚ) ≤ npInterp 0.95 (arias.map (fun v => v / arias.getLast?.getD 0)) time -
        npInterp 0.05 (arias.map (fun v => v / arias.getLast?.getD 0)) time
    linarith [hm]

/-- Witness for C3 at a concrete strictly increasing three-sample curve. -/
theorem duration_window_bounds_witness :
    (([0, 1, 2] : List ℚ).length = ([0, 1, 2] : List ℚ).length ∧
      0 < ([0, 1, 2] : List ℚ).length ∧
      ([0, 1, 2] : List ℚ).getD 0 0 = 0 ∧
      ([0, 1, 2] : List ℚ).Chain' (· ≤ ·) ∧
      0 < ([0, 1, 2] : List ℚ).getLast?.getD 0) ∧
    (0 ≤ (find_5_95_duration_detailed ([0, 1, 2] : List ℚ) [0, 1, 2]).2.1 ∧
      (find_5_95_duration_detailed ([0, 1, 2] : List ℚ) [0, 1, 2]).2.1 ≤
        (find_5_95_duration_detailed ([0, 1, 2] : List ℚ) [0, 1, 2]).2.2 ∧
      (find_5_95_duration_detailed ([0, 1, 2] : List ℚ) [0, 1, 2]).2.2 ≤
        ([0, 1, 2] : List ℚ).getLast?.getD 0 ∧
      (find_5_95_duration_detailed ([0, 1, 2] : List ℚ) [0, 1, 2]).1 =
        (find_5_95_duration_detailed ([0, 1, 2] : List ℚ) [0, 1, 2]).2.2 -
          (find_5_95_duration_detailed ([0, 1, 2] : List ℚ) [0, 1, 2]).2.1 ∧
      0 ≤ (find_5_95_duration_detailed ([0, 1, 2] : List ℚ) [0, 1, 2]).1) := by
  have hch : ([0, 1, 2] : List ℚ).Chain' (· ≤ ·) := by
    norm_num [List.chain'_cons]
  refine ⟨⟨rfl, by norm_num, by norm_num, hch, ?_⟩, ?_⟩
  · norm_num [List.getLast?_cons_cons, List.getLast?_singleton]
  · exact duration_window_bounds [0, 1, 2] [0, 1, 2] rfl (by norm_num) (by norm_num)
      hch hch (by norm_num [List.getLast?_cons_cons, List.getLast?_singleton])

/-- Every entry of the energy curve of an all-zero acceleration record is
zero. -/
theorem arias_zero_accel_elems (time : List ℝ) (n : ℕ) :
    ∀ v ∈ calculate_arias_intensity_detailed time (List.replicate n 0), v = 0 := by
  have hget : ∀ j, (List.replicate n (0 : ℝ)).getD j 0 = 0 := by
    intro j
    rw [List.getD_eq_getElem?_getD, List.getElem?_replicate]
    split <;> rfl
  intro v hv
  rw [calculate_arias_intensity_detailed] at hv
  simp only [List.map_replicate] at hv
  rw [show ((0 : ℝ) * 9.81) ^ 2 = 0 by norm_num] at hv
  rw [cumulative_trapezoid, cumtrapzAux_eq_partialSums] at hv
  simp only [List.map_cons, List.mem_cons, List.mem_map] at hv
  rcases hv with hv | ⟨a, ⟨i, _, ha⟩, hvv⟩
  · rw [hv, mul_zero]
  · have hT : trapPartialSum (fun j => (List.replicate n (0 : ℝ)).getD j 0)
        (fun j => time.getD j 0) (i + 1) = 0 := by
      rw [trapPartialSum]
      apply Finset.sum_eq_zero
      intro j _
      rw [hget j, hget (j + 1)]
      ring
    rw [← hvv, ← ha, hT]
    norm_num

/-- A list whose entries are all zero has last entry zero (with default 0 on
the empty list). -/
theorem getLast_getD_zero_of_forall {l : List ℝ} (h : ∀ v ∈ l, v = 0) :
    l.getLast?.getD 0 = 0 := by
  rw [List.getLast?_eq_getElem?]
  rcases hg : l[l.length - 1]? with _ | a
  · rfl
  · exact h a (List.getElem?_mem hg)

/-- Claim C4: the extractor returns the degenerate window `(0, 0, 0)` whenever
the total energy is zero, and whenever no normalized sample reaches 0.05 or
none reaches 0.95; in particular an all-zero acceleration record of any
positive length yields `t5 = t95 = duration = 0` and zero total Arias
Intensity. The extractor is a total function, so no exception is raised. -/
theorem degenerate_window_cases :
    (∀ (time arias : List ℚ), arias.getLast?.getD 0 = 0 →
      find_5_95_duration_detailed time arias = (0, 0, 0)) ∧
    (∀ (time arias : List ℚ),
      ((∀ i < arias.length,
          (arias.map (fun v => v / arias.getLast?.getD 0)).getD i 0 < 0.05) ∨
        (∀ i < arias.length,
          (arias.map (fun v => v / arias.getLast?.getD 0)).getD i 0 < 0.95)) →
      find_5_95_duration_detailed time arias = (0, 0, 0)) ∧
    (∀ (n : ℕ) (time : List ℝ), 0 < n →
      find_5_95_duration_detailed time
          (calculate_arias_intensity_detailed time (List.replicate n 0)) = (0, 0, 0) ∧
        (calculate_arias_intensity_detailed time
          (List.replicate n 0)).getLast?.getD 0 = 0) := by
  refine ⟨?_, ?_, ?_⟩
  · intro time arias h
    exact find_5_95_total_zero h
  · intro time arias h
    rcases eq_or_ne (arias.getLast?.getD 0) 0 with h0 | h0
    · exact find_5_95_total_zero h0
    · apply find_5_95_no_crossing
      rcases h with h | h
      · left
        rw [List.length_eq_zero, List.filter_eq_nil_iff]
        intro a ha
        rw [List.mem_range, List.length_map] at ha
        simp only [decide_eq_true_eq]
        exact not_le.2 (h a ha)
      · right
        rw [List.length_eq_zero, List.filter_eq_nil_iff]
        intro a ha
        rw [List.mem_range, List.length_map] at ha
        simp only [decide_eq_true_eq]
        exact not_le.2 (h a ha)
  · intro n time _hn
    have hlast := getLast_getD_zero_of_forall (arias_zero_accel_elems time n)
    exact ⟨find_5_95_total_zero hlast, hlast⟩

/-- Witness for C4: a single-sample zero curve, the empty record for the
no-crossing branch, and the all-zero one-sample pipeline over the reals. -/
theorem degenerate_window_cases_witness :
    (([0] : List ℚ).getLast?.getD 0 = 0 ∧
      find_5_95_duration_detailed ([0] : List ℚ) [0] = (0, 0, 0)) ∧
    (((∀ i < ([] : List ℚ).length,
        (([] : List ℚ).map (fun v => v / ([] : List ℚ).getLast?.getD 0)).getD i 0 <
          0.05) ∨
      (∀ i < ([] : List ℚ).length,
        (([] : List ℚ).map (fun v => v / ([] : List ℚ).getLast?.getD 0)).getD i 0 <
          0.95)) ∧
      find_5_95_duration_detailed ([] : List ℚ) [] = (0, 0, 0)) ∧
    (0 < 1 ∧
      find_5_95_duration_detailed ([0] : List ℝ)
          (calculate_arias_intensity_detailed [0] (List.replicate 1 0)) = (0, 0, 0) ∧
      (calculate_arias_intensity_detailed ([0] : List ℝ)
        (List.replicate 1 0)).getLast?.getD 0 = 0) := by
  have hyp2 : (∀ i < ([] : List ℚ).length,
      (([] : List ℚ).map (fun v => v / ([] : List ℚ).getLast?.getD 0)).getD i 0 <
        0.05) ∨
    (∀ i < ([] : List ℚ).length,
      (([] : List ℚ).map (fun v => v / ([] : List ℚ).getLast?.getD 0)).getD i 0 <
        0.95) :=
    Or.inl fun i hi => absurd hi (Nat.not_lt_zero i)
  have hz : (([0] : List ℚ)).getLast?.getD 0 = 0 := by
    norm_num [List.getLast?_singleton]
  refine ⟨⟨hz, degenerate_window_cases.1 [0] [0] hz⟩,
    ⟨hyp2, degenerate_window_cases.2.1 [] [] hyp2⟩,
    by norm_num, (degenerate_window_cases.2.2 1 [0] (by norm_num)).1,
    (degenerate_window_cases.2.2 1 [0] (by norm_num)).2⟩

/-- Claim C5 (amended): on a non-degenerate energy curve whose samples are
strictly increasing, the returned `t5` equals the first-crossing bracketed
piecewise-linear interpolation of the 0.05 threshold against the
`(normalized, time)` pairs, and `t95` likewise at 0.95; on curves with a flat
segment lying exactly at a threshold the extractor interpolates in the last
bracketing segment rather than the first (see the counterexample). -/
theorem t5_t95_eq_first_crossing (time arias : List ℚ)
    (hlen : time.length = arias.length) (hpos : 0 < arias.length)
    (hstrict : arias.Chain' (· < ·)) (htot : 0 < arias.getLast?.getD 0) :
    (find_5_95_duration_detailed time arias).2.1 =
      crossingTimeSpec 0.05 (arias.map (fun v => v / arias.getLast?.getD 0)) time ∧
    (find_5_95_duration_detailed time arias).2.2 =
      crossingTimeSpec 0.95 (arias.map (fun v => v / arias.getLast?.getD 0)) time := by
  rw [find_5_95_eq_interp hpos (ne_of_gt htot)]
  have hNstrict : (arias.map (fun v => v / arias.getLast?.getD 0)).Chain' (· < ·) := by
    rw [List.chain'_map]
    exact hstrict.imp fun a b h => div_lt_div_of_pos_right h htot
  have hNlen : (arias.map (fun v => v / arias.getLast?.getD 0)).length = time.length := by
    simp [hlen]
  have hNne : arias.map (fun v => v / arias.getLast?.getD 0) ≠ [] := by
    rw [← List.length_pos, hNlen, hlen]
    exact hpos
  have hNlast := normalized_getD_last hpos (ne_of_gt htot)
  constructor
  · exact npInterp_eq_crossingTimeSpec hNstrict hNlen hNne (by rw [hNlast]; norm_num)
  · exact npInterp_eq_crossingTimeSpec hNstrict hNlen hNne (by rw [hNlast]; norm_num)

/-- Witness for the amended C5 at a concrete strictly increasing curve. -/
theorem t5_t95_eq_first_crossing_witness :
    (([0, 1, 2] : List ℚ).length = ([0, 1, 2] : List ℚ).length ∧
      0 < ([0, 1, 2] : List ℚ).length ∧
      ([0, 1, 2] : List ℚ).Chain' (· < ·) ∧
      0 < ([0, 1, 2] : List ℚ).getLast?.getD 0) ∧
    ((find_5_95_duration_detailed ([0, 1, 2] : List ℚ) [0, 1, 2]).2.1 =
      crossingTimeSpec 0.05
        (([0, 1, 2] : List ℚ).map
          (fun v => v / ([0, 1, 2] : List ℚ).getLast?.getD 0)) [0, 1, 2] ∧
    (find_5_95_duration_detailed ([0, 1, 2] : List ℚ) [0, 1, 2]).2.2 =
      crossingTimeSpec 0.95
        (([0, 1, 2] : List ℚ).map
          (fun v => v / ([0, 1, 2] : List ℚ).getLast?.getD 0)) [0, 1, 2]) := by
  have hch : ([0, 1, 2] : List ℚ).Chain' (· < ·) := by
    norm_num [List.chain'_cons]
  have hg : 0 < ([0, 1, 2] : List ℚ).getLast?.getD 0 := by
    norm_num [List.getLast?_cons_cons, List.getLast?_singleton]
  exact ⟨⟨rfl, by norm_num, hch, hg⟩,
    t5_t95_eq_first_crossing [0, 1, 2] [0, 1, 2] rfl (by norm_num) hch hg⟩

/-- Counterexample for C5 as stated: the non-degenerate, non-decreasing
energy curve `[0, 1/20, 1/20, 1]` over time `[0, 1, 2, 3]` has a flat segment
sitting exactly at the 5 percent threshold; the extractor returns `t5 = 2`
(numpy interpolates in the last bracketing segment) while first-crossing
bracketed interpolation gives 1. -/
theorem t5_plateau_counterexample :
    ([0, 1/20, 1/20, 1] : List ℚ).Chain' (· ≤ ·) ∧
    0 < ([0, 1/20, 1/20, 1] : List ℚ).getLast?.getD 0 ∧
    (find_5_95_duration_detailed [0, 1, 2, 3] ([0, 1/20, 1/20, 1] : List ℚ)).2.1 = 2 ∧
    crossingTimeSpec 0.05
      (([0, 1/20, 1/20, 1] : List ℚ).map
        (fun v => v / ([0, 1/20, 1/20, 1] : List ℚ).getLast?.getD 0)) [0, 1, 2, 3] = 1 ∧
    ¬ ((find_5_95_duration_detailed [0, 1, 2, 3]
          ([0, 1/20, 1/20, 1] : List ℚ)).2.1 =
        crossingTimeSpec 0.05
          (([0, 1/20, 1/20, 1] : List ℚ).map
            (fun v => v / ([0, 1/20, 1/20, 1] : List ℚ).getLast?.getD 0))
          [0, 1, 2, 3]) := by
  have hfind := @find_5_95_eq_interp ℚ _ [0, 1, 2, 3] [0, 1/20, 1/20, 1]
    (by norm_num) (by norm_num [List.getLast?_cons_cons, List.getLast?_singleton])
  have h1 : (find_5_95_duration_detailed [0, 1, 2, 3]
      ([0, 1/20, 1/20, 1] : List ℚ)).2.1 = 2 := by
    rw [hfind]
    norm_num [npInterp, List.findIdx_cons, List.getLast?_cons_cons,
      List.getLast?_singleton]
  have h2 : crossingTimeSpec 0.05
      (([0, 1/20, 1/20, 1] : List ℚ).map
        (fun v => v / ([0, 1/20, 1/20, 1] : List ℚ).getLast?.getD 0)) [0, 1, 2, 3] = 1 := by
    norm_num [crossingTimeSpec, List.findIdx_cons, List.getLast?_cons_cons,
      List.getLast?_singleton]
  refine ⟨by norm_num [List.chain'_cons], ?_, h1, h2, ?_⟩
  · norm_num [List.getLast?_cons_cons, List.getLast?_singleton]
  · intro hc
    rw [h1, h2] at hc
    exact absurd hc (by norm_num)

end Grm
